import Mathlib

/-!
# Verification of the hikyuu composite multi-factor engine and delegate system

This development shallowly embeds the two classes declared under
`hikyuu_cpp/hikyuu/trade_sys`:

* `MultiFactorBase` (`factor/MultiFactorBase.h`) — the composite multi-factor
  engine: configuration, lazy one-shot computation pipeline (calendar
  alignment, synthesis, cross-section indexing), accessors, IC/ICIR
  statistics, clone, and boost serialization.
* `DelegateSystem` (`system/DelegateSystem.h`) — the delegating wrapper over
  the trading-execution system.

Only the headers of these classes are part of the repository snapshot: the
member-function bodies live in `.cpp` files that are not present.  Where a
definition below embeds behaviour whose body is missing, its doc comment
starts with `Modelled from the spec:` and it follows the specification's
words; the state layout, the member declarations, and the serialization
bodies (which are fully present in the headers) are transcribed from the
headers directly.

Machine scalars (`Indicator::value_t`, i.e. `double`) are idealised as `Int`,
with `Option` for the undefined/missing sentinel (NaN in the source); the
numerical kernels that are inherently floating point (the cross-sectional
correlation coefficient of the IC, the rolling mean/standard-deviation ratio
of the ICIR) are taken as uninterpreted collaborator functions, mirroring
spec section 4.5 which leaves the correlation variant to the caller.  No
claim below depends on their values.
-/

namespace HikyuuSpec

/-- Opaque, hashable, comparable security identifier (spec section 3). -/
abbrev Stock := Nat

/-- A calendar point; totally ordered, hashable (spec section 6). -/
abbrev Datetime := Nat

/-- Idealisation of `Indicator::value_t` (`double`) for defined values. -/
abbrev Value := Int

/-- An opaque raw-factor token; the environment evaluates it per
(security, date), mirroring spec section 6: a `RawFactor` is only
"callable/queryable per (security) → time-indexed scalar series". -/
abbrev RawFactor := Nat

/-- Opaque date-range query token (`KQuery`). -/
abbrev KQueryT := Nat

/-- A series aligned on the reference date axis: one optional value per
reference date (`none` is the undefined/missing marker). -/
abbrev Series := List (Option Value)

/-- Configuration fields of `MultiFactorBase`, transcribed from the header
(lines 96-100 plus the `PARAMETER_SUPPORT` parameter `ic_n`):
`m_name`, `m_inds`, `m_stks`, `m_ref_stk`, `m_query`, and the IC horizon. -/
structure MFConfig where
  m_name : String
  m_params_ic_n : Nat
  m_inds : List RawFactor
  m_stks : List Stock
  m_ref_stk : Stock
  m_query : KQueryT
deriving DecidableEq, Repr

/-- The collaborators of the engine (spec section 6) together with the
pluggable synthesis strategy (the concrete subclass's `_calculate`):

* `factorEval` — evaluation of a raw factor per (security, date);
* `calendar` — the reference calendar for (reference security, query);
* `fret` — the forward-return source: security, date, horizon → scalar or
  undefined;
* `corr` — the cross-sectional association coefficient applied to the list
  of (factor value, forward return) pairs of one date (uninterpreted:
  "rank or linear, caller's choice of engine variant", spec 4.5);
* `icirStat` — the rolling mean to rolling standard deviation statistic of
  one full IC window (uninterpreted for the same reason);
* `strategy` — the synthesis capability: aligned `[factor][security]`
  series to one composite series per security (spec 4.3). -/
structure MFEnv where
  factorEval : RawFactor → Stock → Datetime → Option Value
  calendar : Stock → KQueryT → List Datetime
  fret : Stock → Datetime → Nat → Option Value
  corr : List (Value × Value) → Value
  icirStat : List Value → Value
  strategy : List (List Series) → List Series

/-- The state of one `MultiFactorBase` instance.  The derived fields are
exactly the members declared after the header's comment "the following
variables are produced by the computation" (lines 102-108) plus the
`m_calculated` flag (line 112); `calc_count` and `ic_count` are ghost
instrumentation counters — the "pipeline-invocation counter in tests" the
spec uses to observe whether work was performed (spec section 8). -/
structure MFState where
  cfg : MFConfig
  env : MFEnv
  m_ref_dates : List Datetime := []
  m_stk_map : List (Stock × Nat) := []
  m_all_factors : List Series := []
  m_date_index : List (Datetime × Nat) := []
  m_stk_factor_by_date : List (List (Stock × Option Value)) := []
  m_ic : Option Series := none
  m_calculated : Bool := false
  calc_count : Nat := 0
  ic_count : Nat := 0

/-- Error kinds of spec section 7 that surface as exceptions. -/
inductive MFError where
  | configurationError
  | notFoundError
deriving DecidableEq, Repr

/-- A freshly constructed engine instance: configuration only, every
derived field empty, uncomputed. -/
def initMF (cfg : MFConfig) (env : MFEnv) : MFState :=
  { cfg := cfg, env := env }

/-- Modelled from the spec (4.2, body of `MultiFactorBase::_alignAllInds`
missing): project one raw factor, for one security, onto the reference
date axis; dates with no available value carry the missing marker. -/
def alignInd (env : MFEnv) (dates : List Datetime) (f : RawFactor) (stk : Stock) : Series :=
  dates.map (fun d => env.factorEval f stk d)

/-- Modelled from the spec (4.2): the `AlignedFactorSet` of uniform shape
`[num_factors][num_securities][num_dates]`. -/
def _alignAllInds (cfg : MFConfig) (env : MFEnv) (dates : List Datetime) : List (List Series) :=
  cfg.m_inds.map (fun f => cfg.m_stks.map (alignInd env dates f))

/-- The composite-factor value of the security at slot `i` on the date at
slot `di` (missing when out of range or undefined). -/
def valueAt (factors : List Series) (i di : Nat) : Option Value :=
  ((factors[i]?).bind (fun ser => ser[di]?)).join

/-- The order key of an optional value: defined values compare by value,
the missing marker is strictly below every defined value, so that a
descending sort puts missing entries last. -/
def optKey : Option Value → WithBot Value
  | none => ⊥
  | some v => (v : WithBot Value)

/-- The sort key of a tagged cross-section entry. -/
def keyVal (p : Stock × Nat × Option Value) : WithBot Value :=
  optKey p.2.2

/-- Modelled from the spec (4.4): the cross-section comparison — descending
by value, missing values last, ties broken by original universe slot. -/
def crossLe (a b : Stock × Nat × Option Value) : Bool :=
  decide (keyVal b < keyVal a ∨ (keyVal a = keyVal b ∧ a.2.1 ≤ b.2.1))

/-- Modelled from the spec (4.4): collect `(security, slot, value)` for every
security of the universe, slots counted from `k`. -/
def crossEntriesFrom (factors : List Series) (di : Nat) : Nat → List Stock → List (Stock × Nat × Option Value)
  | _, [] => []
  | k, x :: xs => (x, k, valueAt factors k di) :: crossEntriesFrom factors di (k + 1) xs

/-- Modelled from the spec (4.4): one date's ranking, tags kept. -/
def crossTaggedAt (stks : List Stock) (factors : List Series) (di : Nat) :
    List (Stock × Nat × Option Value) :=
  (crossEntriesFrom factors di 0 stks).mergeSort crossLe

/-- Modelled from the spec (4.4): one date's ranking as the source exposes
it — `(security, value)` pairs sorted descending. -/
def buildCrossAt (stks : List Stock) (factors : List Series) (di : Nat) :
    List (Stock × Option Value) :=
  (crossTaggedAt stks factors di).map (fun t => (t.1, t.2.2))

/-- Modelled from the spec (4.4): the key → slot index, built by enumerating
the keys in order starting at slot `k` (the loop body of `_buildIndex`). -/
def indexMapFrom : Nat → List Nat → List (Nat × Nat)
  | _, [] => []
  | k, x :: xs => (x, k) :: indexMapFrom (k + 1) xs

/-- The key → slot index starting at slot 0 (`m_stk_map` / `m_date_index`). -/
def indexMap (l : List Nat) : List (Nat × Nat) :=
  indexMapFrom 0 l

/-- Modelled from the spec (4.1-4.4 and 4.6, body of
`MultiFactorBase::calculate` missing): the one-shot computation pipeline.
Resolves the calendar, aligns all raw factors, invokes the synthesis
strategy, checks the shape invariant `len(CompositeFactor list) ==
len(universe)` (a `ConfigurationError` otherwise, spec 4.3/7), then builds
the cross-section indices; the committed state is produced atomically
(spec 7: "either the full pipeline commits atomically or the instance is
marked failed; there are no partial-result reads").  The stages are split
into named definitions below; `runPipeline` assembles them.

The reference date axis (spec 4.1). -/
def pipelineDates (s : MFState) : List Datetime :=
  s.env.calendar s.cfg.m_ref_stk s.cfg.m_query

/-- The composite-factor list the synthesis strategy produces (spec 4.3). -/
def pipelineFactors (s : MFState) : List Series :=
  s.env.strategy (_alignAllInds s.cfg s.env (pipelineDates s))

/-- The fully computed state the pipeline commits (spec 4.1-4.4). -/
def pipelineResult (s : MFState) : MFState :=
  { s with
    m_ref_dates := pipelineDates s
    m_all_factors := pipelineFactors s
    m_stk_map := indexMap s.cfg.m_stks
    m_date_index := indexMap (pipelineDates s)
    m_stk_factor_by_date :=
      (List.range (pipelineDates s).length).map (buildCrossAt s.cfg.m_stks (pipelineFactors s))
    m_calculated := true
    calc_count := s.calc_count + 1 }

def runPipeline (s : MFState) : Except MFError MFState :=
  if (pipelineFactors s).length = s.cfg.m_stks.length then
    .ok (pipelineResult s)
  else
    .error .configurationError

/-- Modelled from the spec (4.6): `MultiFactorBase::calculate` runs the
pipeline exactly once — a no-op when the instance is already computed. -/
def calculate (s : MFState) : Except MFError MFState :=
  if s.m_calculated then .ok s else runPipeline s

/-- Modelled from the spec (4.6): `getFactor` ensures computed, looks up
`SecurityIndex`, and fails with a not-found condition if the security was
never part of the configured universe. -/
def getFactor (s : MFState) (stk : Stock) : Except MFError (Series × MFState) :=
  match calculate s with
  | .error e => .error e
  | .ok c =>
    match c.m_stk_map.lookup stk with
    | some i =>
      match c.m_all_factors[i]? with
      | some f => .ok (f, c)
      | none => .error .notFoundError
    | none => .error .notFoundError

/-- Modelled from the spec: `getAllFactors` ensures computed and returns the
composite factors, in universe order. -/
def getAllFactors (s : MFState) : Except MFError (List Series × MFState) :=
  match calculate s with
  | .error e => .error e
  | .ok c => .ok (c.m_all_factors, c)

/-- Modelled from the spec (4.6): `getCross` ensures computed, looks up
`DateIndex`, and fails with a not-found condition if the date is outside
the reference date axis. -/
def getCross (s : MFState) (d : Datetime) : Except MFError (List (Stock × Option Value) × MFState) :=
  match calculate s with
  | .error e => .error e
  | .ok c =>
    match c.m_date_index.lookup d with
    | some i =>
      match c.m_stk_factor_by_date[i]? with
      | some r => .ok (r, c)
      | none => .error .notFoundError
    | none => .error .notFoundError

/-- Modelled from the spec: `getAllCross` ensures computed and returns all
per-date rankings. -/
def getAllCross (s : MFState) :
    Except MFError (List (List (Stock × Option Value)) × MFState) :=
  match calculate s with
  | .error e => .error e
  | .ok c => .ok (c.m_stk_factor_by_date, c)

/-- Modelled from the spec (4.5): the defined (composite value, forward
return) pairs of one date slot, across the universe. -/
def pairsAt (c : MFState) (n di : Nat) : List (Value × Value) :=
  (List.range c.cfg.m_stks.length).filterMap (fun i =>
    match valueAt c.m_all_factors i di,
          c.env.fret (c.cfg.m_stks.getD i 0) (c.m_ref_dates.getD di 0) n with
    | some x, some y => some (x, y)
    | _, _ => none)

/-- Modelled from the spec (4.5): the IC series for horizon `n` — per date
the cross-sectional association between composite values and forward
returns over the securities with both values defined; dates with fewer than
two comparable securities produce an undefined IC value. -/
def computeIC (c : MFState) (n : Nat) : Series :=
  (List.range c.m_ref_dates.length).map (fun di =>
    let pairs := pairsAt c n di
    if pairs.length < 2 then none else some (c.env.corr pairs))

/-- The effective IC horizon of a `getIC` call: `ndays == 0` is the explicit
special case that substitutes the horizon supplied at construction
(spec 4.5). -/
def effHorizon (c : MFState) (ndays : Nat) : Nat :=
  if ndays = 0 then c.cfg.m_params_ic_n else ndays

/-- Modelled from the spec (4.5, body of `MultiFactorBase::getIC` missing):
ensures computed, then computes the IC series for the effective horizon.
The header declares a single cached `Indicator m_ic` (line 108) and no
per-argument table, so the cache can hold at most one IC series: the one
for the construction horizon; other horizons are recomputed on every call.
`ic_count` counts IC computations. -/
def getIC (s : MFState) (ndays : Nat) : Except MFError (Series × MFState) :=
  match calculate s with
  | .error e => .error e
  | .ok c =>
    if effHorizon c ndays = c.cfg.m_params_ic_n then
      match c.m_ic with
      | some ic => .ok (ic, c)
      | none =>
        .ok (computeIC c (effHorizon c ndays),
             { c with m_ic := some (computeIC c (effHorizon c ndays)),
                      ic_count := c.ic_count + 1 })
    else
      .ok (computeIC c (effHorizon c ndays), { c with ic_count := c.ic_count + 1 })

/-- Modelled from the spec (4.5): the rolling ICIR series — per date, the
rolling statistic of the trailing `ir_n`-date IC window; leading dates
without a full window, and windows containing an undefined IC value,
produce undefined values. -/
def rollingICIR (env : MFEnv) (ic : Series) (ir_n : Nat) : Series :=
  (List.range ic.length).map (fun i =>
    if i + 1 < ir_n then none
    else
      match ((ic.take (i + 1)).drop (i + 1 - ir_n)).mapM id with
      | some vs => some (env.icirStat vs)
      | none => none)

/-- Modelled from the spec (4.5, body of `MultiFactorBase::getICIR`
missing): obtain the IC series via `getIC ic_n` (with its `0` default),
then the rolling window statistic. -/
def getICIR (s : MFState) (ir_n ic_n : Nat) : Except MFError (Series × MFState) :=
  match getIC s ic_n with
  | .error e => .error e
  | .ok (ic, c) => .ok (rollingICIR c.env ic ir_n, c)

/-- Modelled from the spec (4.6, body of `MultiFactorBase::clone` missing):
invoke the concrete strategy's factory (`_clone`), then copy the
configuration onto the fresh instance; the result starts uncomputed and
carries no derived or cached structure. -/
def clone (s : MFState) : MFState :=
  initMF s.cfg s.env

/-- `MultiFactorBase::getDatetimeList` (header, lines 42-44): returns the
reference date axis field directly. -/
def getDatetimeList (s : MFState) : List Datetime :=
  s.m_ref_dates

/-- `MultiFactorBase::getQuery` (header, lines 46-48). -/
def getQuery (s : MFState) : KQueryT :=
  s.cfg.m_query

/-! ## Serialization (bodies present in the header, lines 120-153) -/

/-- The archive produced by `MultiFactorBase::save`, one component per
`BOOST_SERIALIZATION_NVP` line actually executed (header lines 122-128):
`m_name`, `m_params`, `m_inds`, `m_stks`, `m_ref_stk`, `m_query`, and
`m_ref_dates`. -/
structure MFSavedForm where
  m_name : String
  m_params_ic_n : Nat
  m_inds : List RawFactor
  m_stks : List Stock
  m_ref_stk : Stock
  m_query : KQueryT
  m_ref_dates : List Datetime
deriving DecidableEq, Repr

/-- `MultiFactorBase::save` (header lines 121-136): archives the six
configuration components and `m_ref_dates`; the remaining derived members
(`m_stk_map`, `m_all_factors`, `m_date_index`, `m_ic`, `m_calculated`,
`m_stk_factor_by_date`) appear only in the commented-out block "the
following need not be saved, recomputed after load". -/
def save (s : MFState) : MFSavedForm :=
  { m_name := s.cfg.m_name
    m_params_ic_n := s.cfg.m_params_ic_n
    m_inds := s.cfg.m_inds
    m_stks := s.cfg.m_stks
    m_ref_stk := s.cfg.m_ref_stk
    m_query := s.cfg.m_query
    m_ref_dates := s.m_ref_dates }

/-- `MultiFactorBase::load` (header lines 139-153): restores exactly the
archived components; every other member keeps its default-constructed value
(empty containers, empty `m_ic`, `m_calculated{false}`).  The collaborators
are ambient (they are not archived). -/
def load (a : MFSavedForm) (env : MFEnv) : MFState :=
  { cfg := { m_name := a.m_name
             m_params_ic_n := a.m_params_ic_n
             m_inds := a.m_inds
             m_stks := a.m_stks
             m_ref_stk := a.m_ref_stk
             m_query := a.m_query }
    env := env
    m_ref_dates := a.m_ref_dates }

/-- The member names archived by `save`, in archive order (header lines
122-128). -/
def mfSaveFields : List String :=
  ["m_name", "m_params", "m_inds", "m_stks", "m_ref_stk", "m_query", "m_ref_dates"]

/-- The member names read back by `load`, in archive order (header lines
140-146). -/
def mfLoadFields : List String :=
  ["m_name", "m_params", "m_inds", "m_stks", "m_ref_stk", "m_query", "m_ref_dates"]

/-- The configuration members of `MultiFactorBase` (header lines 96-100 and
the `PARAMETER_SUPPORT` member `m_params`). -/
def mfConfigFields : List String :=
  ["m_name", "m_params", "m_inds", "m_stks", "m_ref_stk", "m_query"]

/-- The members the header marks as "produced by the computation" (lines
102-108). -/
def mfDerivedFields : List String :=
  ["m_ref_dates", "m_stk_map", "m_all_factors", "m_date_index", "m_stk_factor_by_date", "m_ic"]

/-! ## DelegateSystem (`system/DelegateSystem.h`) -/

/-- Opaque `KData` token. -/
abbrev KDataT := Nat

/-- Opaque `TradeRecord` value. -/
abbrev TradeRecord := Nat

/-- Opaque `Part` (business part) value. -/
abbrev PartT := Nat

/-- Idealisation of `double num` arguments. -/
abbrev Num := Int

/-- The `System` interface restricted to the operations `DelegateSystem`
overrides (header lines 20-32), over an abstract system state `σ`:
state-changing void methods are `σ → σ`, methods returning a `TradeRecord`
also update the state, and the `const` query `haveDelaySellRequest` reads
only. -/
structure SystemOps (σ : Type) where
  run : σ → KDataT → Bool → Bool → σ
  runMoment : σ → Datetime → TradeRecord × σ
  _reset : σ → σ
  _forceResetAll : σ → σ
  sellForceOnOpen : σ → Datetime → Num → PartT → TradeRecord × σ
  sellForceOnClose : σ → Datetime → Num → PartT → TradeRecord × σ
  clearDelayBuyRequest : σ → σ
  haveDelaySellRequest : σ → Bool
  pfProcessDelaySellRequest : σ → Datetime → TradeRecord × σ

/-- A `DelegateSystem` wrapping an inner system state (the `m_sys`
member, header line 35). -/
structure DelegateSystem (σ : Type) where
  m_sys : σ

/-- Modelled from the spec ("the trading-execution state machine and its
delegating wrapper (a pure forwarding adapter with no independent logic)";
the bodies of the overrides are not under `src/`): every overridden
operation forwards to the wrapped inner system. -/
def delegateOps {σ : Type} (ops : SystemOps σ) : SystemOps (DelegateSystem σ) where
  run s k r ra := ⟨ops.run s.m_sys k r ra⟩
  runMoment s d := ((ops.runMoment s.m_sys d).1, ⟨(ops.runMoment s.m_sys d).2⟩)
  _reset s := ⟨ops._reset s.m_sys⟩
  _forceResetAll s := ⟨ops._forceResetAll s.m_sys⟩
  sellForceOnOpen s d n p := ((ops.sellForceOnOpen s.m_sys d n p).1, ⟨(ops.sellForceOnOpen s.m_sys d n p).2⟩)
  sellForceOnClose s d n p := ((ops.sellForceOnClose s.m_sys d n p).1, ⟨(ops.sellForceOnClose s.m_sys d n p).2⟩)
  clearDelayBuyRequest s := ⟨ops.clearDelayBuyRequest s.m_sys⟩
  haveDelaySellRequest s := ops.haveDelaySellRequest s.m_sys
  pfProcessDelaySellRequest s d := ((ops.pfProcessDelaySellRequest s.m_sys d).1, ⟨(ops.pfProcessDelaySellRequest s.m_sys d).2⟩)

/-! ## Helper lemmas: the compute orchestrator -/

theorem runPipeline_ok_iff {s c : MFState} :
    runPipeline s = .ok c ↔
      (pipelineFactors s).length = s.cfg.m_stks.length ∧ c = pipelineResult s := by
  unfold runPipeline
  split
  · simp_all [eq_comm]
  · simp_all

theorem calculate_of_calculated {s : MFState} (h : s.m_calculated = true) :
    calculate s = .ok s := by
  simp [calculate, h]

theorem calculate_ok_flag {s c : MFState} (h : calculate s = .ok c) :
    c.m_calculated = true := by
  unfold calculate at h
  split at h
  · cases h; assumption
  · rcases runPipeline_ok_iff.mp h with ⟨-, rfl⟩
    rfl

theorem calculate_idem {s c : MFState} (h : calculate s = .ok c) :
    calculate c = .ok c :=
  calculate_of_calculated (calculate_ok_flag h)

theorem calculate_count {s c : MFState} (h : calculate s = .ok c) :
    (s.m_calculated = false → c.calc_count = s.calc_count + 1) ∧
      (s.m_calculated = true → c = s) := by
  unfold calculate at h
  split at h
  · cases h; simp_all
  · rcases runPipeline_ok_iff.mp h with ⟨-, rfl⟩
    simp_all [pipelineResult]

theorem getAllFactors_ok {s : MFState} {r : List Series} {s₁ : MFState}
    (h : getAllFactors s = .ok (r, s₁)) :
    calculate s = .ok s₁ ∧ r = s₁.m_all_factors := by
  unfold getAllFactors at h
  rcases hcal : calculate s with e | c <;> rw [hcal] at h
  · cases h
  · cases h
    exact ⟨rfl, rfl⟩

theorem getAllFactors_intro {s c : MFState} (hcal : calculate s = .ok c) :
    getAllFactors s = .ok (c.m_all_factors, c) := by
  unfold getAllFactors
  rw [hcal]

theorem getAllCross_ok {s : MFState} {r : List (List (Stock × Option Value))} {s₁ : MFState}
    (h : getAllCross s = .ok (r, s₁)) :
    calculate s = .ok s₁ ∧ r = s₁.m_stk_factor_by_date := by
  unfold getAllCross at h
  rcases hcal : calculate s with e | c <;> rw [hcal] at h
  · cases h
  · cases h
    exact ⟨rfl, rfl⟩

theorem getAllCross_intro {s c : MFState} (hcal : calculate s = .ok c) :
    getAllCross s = .ok (c.m_stk_factor_by_date, c) := by
  unfold getAllCross
  rw [hcal]

theorem getFactor_ok {s : MFState} {stk : Stock} {r : Series} {s₁ : MFState}
    (h : getFactor s stk = .ok (r, s₁)) :
    calculate s = .ok s₁ ∧
      ∃ i, s₁.m_stk_map.lookup stk = some i ∧ s₁.m_all_factors[i]? = some r := by
  unfold getFactor at h
  rcases hcal : calculate s with e | c <;> rw [hcal] at h
  · cases h
  · simp only [] at h
    rcases hl : c.m_stk_map.lookup stk with - | i <;> rw [hl] at h
    · cases h
    · simp only [] at h
      rcases hf : c.m_all_factors[i]? with - | f <;> rw [hf] at h
      · cases h
      · cases h
        exact ⟨rfl, i, hl, hf⟩

theorem getFactor_intro {s c : MFState} {stk : Stock} {i : Nat} {r : Series}
    (hcal : calculate s = .ok c) (hl : c.m_stk_map.lookup stk = some i)
    (hf : c.m_all_factors[i]? = some r) :
    getFactor s stk = .ok (r, c) := by
  unfold getFactor
  rw [hcal]
  simp only []
  rw [hl]
  simp only []
  rw [hf]

theorem getCross_ok {s : MFState} {d : Datetime} {r : List (Stock × Option Value)} {s₁ : MFState}
    (h : getCross s d = .ok (r, s₁)) :
    calculate s = .ok s₁ ∧
      ∃ i, s₁.m_date_index.lookup d = some i ∧ s₁.m_stk_factor_by_date[i]? = some r := by
  unfold getCross at h
  rcases hcal : calculate s with e | c <;> rw [hcal] at h
  · cases h
  · simp only [] at h
    rcases hl : c.m_date_index.lookup d with - | i <;> rw [hl] at h
    · cases h
    · simp only [] at h
      rcases hf : c.m_stk_factor_by_date[i]? with - | f <;> rw [hf] at h
      · cases h
      · cases h
        exact ⟨rfl, i, hl, hf⟩

theorem getCross_intro {s c : MFState} {d : Datetime} {i : Nat} {r : List (Stock × Option Value)}
    (hcal : calculate s = .ok c) (hl : c.m_date_index.lookup d = some i)
    (hf : c.m_stk_factor_by_date[i]? = some r) :
    getCross s d = .ok (r, c) := by
  unfold getCross
  rw [hcal]
  simp only []
  rw [hl]
  simp only []
  rw [hf]

theorem getIC_cases {s : MFState} {n : Nat} {r : Series} {s₁ : MFState}
    (h : getIC s n = .ok (r, s₁)) :
    ∃ c, calculate s = .ok c ∧
      ((effHorizon c n = c.cfg.m_params_ic_n ∧ c.m_ic = some r ∧ s₁ = c) ∨
       (effHorizon c n = c.cfg.m_params_ic_n ∧ c.m_ic = none ∧
          r = computeIC c (effHorizon c n) ∧
          s₁ = { c with m_ic := some r, ic_count := c.ic_count + 1 }) ∨
       (effHorizon c n ≠ c.cfg.m_params_ic_n ∧ r = computeIC c (effHorizon c n) ∧
          s₁ = { c with ic_count := c.ic_count + 1 })) := by
  unfold getIC at h
  rcases hcal : calculate s with e | c <;> rw [hcal] at h
  · cases h
  · simp only [] at h
    refine ⟨c, rfl, ?_⟩
    split at h
    · rcases hic : c.m_ic with - | ic <;> rw [hic] at h
      · cases h
        exact Or.inr (Or.inl ⟨by assumption, rfl, rfl, rfl⟩)
      · cases h
        exact Or.inl ⟨by assumption, rfl, rfl⟩
    · cases h
      exact Or.inr (Or.inr ⟨by assumption, rfl, rfl⟩)

theorem getIC_intro_hit {s : MFState} {n : Nat} {ic : Series}
    (hflag : s.m_calculated = true) (hn : effHorizon s n = s.cfg.m_params_ic_n)
    (hic : s.m_ic = some ic) :
    getIC s n = .ok (ic, s) := by
  unfold getIC
  rw [calculate_of_calculated hflag]
  simp only []
  rw [if_pos hn]
  rw [hic]

theorem getIC_intro_miss {s : MFState} {n : Nat}
    (hflag : s.m_calculated = true) (hn : effHorizon s n = s.cfg.m_params_ic_n)
    (hic : s.m_ic = none) :
    getIC s n = .ok (computeIC s (effHorizon s n),
      { s with m_ic := some (computeIC s (effHorizon s n)),
               ic_count := s.ic_count + 1 }) := by
  unfold getIC
  rw [calculate_of_calculated hflag]
  simp only []
  rw [if_pos hn]
  rw [hic]

theorem getIC_intro_other {s : MFState} {n : Nat}
    (hflag : s.m_calculated = true) (hn : effHorizon s n ≠ s.cfg.m_params_ic_n) :
    getIC s n = .ok (computeIC s (effHorizon s n), { s with ic_count := s.ic_count + 1 }) := by
  unfold getIC
  rw [calculate_of_calculated hflag]
  simp only []
  rw [if_neg hn]

theorem getIC_repeat {s : MFState} {n : Nat} {r : Series} {s₁ : MFState}
    (h : getIC s n = .ok (r, s₁)) :
    s₁.m_calculated = true ∧
      ∃ s₂, getIC s₁ n = .ok (r, s₂) ∧ s₂.calc_count = s₁.calc_count ∧
        s₂.m_calculated = true ∧ s₂.env = s₁.env ∧ s₂.cfg = s₁.cfg := by
  rcases getIC_cases h with ⟨c, hcal, hc⟩
  have hflag : c.m_calculated = true := calculate_ok_flag hcal
  rcases hc with ⟨hn, hic, rfl⟩ | ⟨hn, hic, hr, rfl⟩ | ⟨hn, hr, rfl⟩
  · exact ⟨hflag, _, getIC_intro_hit hflag hn hic, rfl, hflag, rfl, rfl⟩
  · refine ⟨hflag, _, @getIC_intro_hit { c with m_ic := some r, ic_count := c.ic_count + 1 }
      n r hflag hn rfl, rfl, hflag, rfl, rfl⟩
  · subst hr
    exact ⟨hflag, _, @getIC_intro_other { c with ic_count := c.ic_count + 1 } n hflag hn,
      rfl, hflag, rfl, rfl⟩

theorem getIC_calc_count {s : MFState} {n : Nat} {r : Series} {s₁ : MFState}
    (h : getIC s n = .ok (r, s₁)) :
    (s.m_calculated = false → s₁.calc_count = s.calc_count + 1) ∧
      (s.m_calculated = true → s₁.calc_count = s.calc_count) := by
  rcases getIC_cases h with ⟨c, hcal, hc⟩
  have hcc := calculate_count hcal
  rcases hc with ⟨-, -, rfl⟩ | ⟨-, -, -, rfl⟩ | ⟨-, -, rfl⟩ <;>
    exact ⟨fun hf => hcc.1 hf, fun ht => by rw [hcc.2 ht]⟩

theorem getICIR_ok {s : MFState} {irn icn : Nat} {r : Series} {s₁ : MFState}
    (h : getICIR s irn icn = .ok (r, s₁)) :
    ∃ ic, getIC s icn = .ok (ic, s₁) ∧ r = rollingICIR s₁.env ic irn := by
  unfold getICIR at h
  rcases hic : getIC s icn with e | p <;> rw [hic] at h
  · cases h
  · rcases p with ⟨ic, c⟩
    simp only [] at h
    cases h
    exact ⟨ic, rfl, rfl⟩

theorem getICIR_intro {s c : MFState} {icn irn : Nat} {ic : Series}
    (hic : getIC s icn = .ok (ic, c)) :
    getICIR s irn icn = .ok (rollingICIR c.env ic irn, c) := by
  unfold getICIR
  rw [hic]

theorem getICIR_repeat {s : MFState} {irn icn : Nat} {r : Series} {s₁ : MFState}
    (h : getICIR s irn icn = .ok (r, s₁)) :
    s₁.m_calculated = true ∧
      ∃ s₂, getICIR s₁ irn icn = .ok (r, s₂) ∧ s₂.calc_count = s₁.calc_count := by
  rcases getICIR_ok h with ⟨ic, hic, rfl⟩
  rcases getIC_repeat hic with ⟨hflag, s₂, hic2, hcc, -, henv, -⟩
  refine ⟨hflag, s₂, ?_, hcc⟩
  have hfw : getICIR s₁ irn icn = .ok (rollingICIR s₂.env ic irn, s₂) := getICIR_intro hic2
  rw [henv] at hfw
  exact hfw

theorem getICIR_calc_count {s : MFState} {irn icn : Nat} {r : Series} {s₁ : MFState}
    (h : getICIR s irn icn = .ok (r, s₁)) :
    (s.m_calculated = false → s₁.calc_count = s.calc_count + 1) ∧
      (s.m_calculated = true → s₁.calc_count = s.calc_count) := by
  rcases getICIR_ok h with ⟨ic, hic, -⟩
  exact getIC_calc_count hic

/-! ## Concrete sample instances (used by the witnesses) -/

/-- A concrete sample environment: one raw factor valued `stk + d`, a
two-date calendar, constant forward returns, and the synthesis strategy
that returns the first factor's aligned series (one per security). -/
def sampleEnv : MFEnv where
  factorEval _ stk d := some ((stk : Int) + d)
  calendar _ _ := [1, 2]
  fret _ _ _ := some 1
  corr _ := 0
  icirStat _ := 0
  strategy aligned := aligned.getD 0 []

/-- A concrete sample configuration: two securities, one raw factor,
IC horizon 1. -/
def sampleCfg : MFConfig where
  m_name := "mf"
  m_params_ic_n := 1
  m_inds := [0]
  m_stks := [10, 20]
  m_ref_stk := 5
  m_query := 0

/-- A freshly constructed sample engine instance. -/
def sampleS : MFState := initMF sampleCfg sampleEnv

/-- A sample environment whose synthesis strategy violates the shape
invariant: it returns no composite series at all for a two-security
universe. -/
def badEnv : MFEnv :=
  { sampleEnv with strategy := fun _ => [] }

/-- A freshly constructed instance whose strategy is mis-shaped. -/
def badS : MFState := initMF sampleCfg badEnv

/-! ## Claim theorems -/

/-- C1: every public accessor (`getFactor`, `getAllFactors`, `getCross`,
`getAllCross`, `getIC`, `getICIR`) first ensures the instance is computed
(the post-state is always `computed`), running the pipeline exactly once
per instance: a call on an uncomputed instance performs exactly one
pipeline invocation, a call on a computed instance performs none, and a
repeated call with the same arguments returns the structurally identical
result while performing no pipeline work (the pipeline-invocation counter
does not move). -/
theorem mf_accessors_once_idempotent (s : MFState) :
    (∀ r s₁, getAllFactors s = .ok (r, s₁) →
        s₁.m_calculated = true ∧
        (s.m_calculated = false → s₁.calc_count = s.calc_count + 1) ∧
        (s.m_calculated = true → s₁.calc_count = s.calc_count) ∧
        ∃ s₂, getAllFactors s₁ = .ok (r, s₂) ∧ s₂.calc_count = s₁.calc_count) ∧
    (∀ stk r s₁, getFactor s stk = .ok (r, s₁) →
        s₁.m_calculated = true ∧
        (s.m_calculated = false → s₁.calc_count = s.calc_count + 1) ∧
        (s.m_calculated = true → s₁.calc_count = s.calc_count) ∧
        ∃ s₂, getFactor s₁ stk = .ok (r, s₂) ∧ s₂.calc_count = s₁.calc_count) ∧
    (∀ d r s₁, getCross s d = .ok (r, s₁) →
        s₁.m_calculated = true ∧
        (s.m_calculated = false → s₁.calc_count = s.calc_count + 1) ∧
        (s.m_calculated = true → s₁.calc_count = s.calc_count) ∧
        ∃ s₂, getCross s₁ d = .ok (r, s₂) ∧ s₂.calc_count = s₁.calc_count) ∧
    (∀ r s₁, getAllCross s = .ok (r, s₁) →
        s₁.m_calculated = true ∧
        (s.m_calculated = false → s₁.calc_count = s.calc_count + 1) ∧
        (s.m_calculated = true → s₁.calc_count = s.calc_count) ∧
        ∃ s₂, getAllCross s₁ = .ok (r, s₂) ∧ s₂.calc_count = s₁.calc_count) ∧
    (∀ n r s₁, getIC s n = .ok (r, s₁) →
        s₁.m_calculated = true ∧
        (s.m_calculated = false → s₁.calc_count = s.calc_count + 1) ∧
        (s.m_calculated = true → s₁.calc_count = s.calc_count) ∧
        ∃ s₂, getIC s₁ n = .ok (r, s₂) ∧ s₂.calc_count = s₁.calc_count) ∧
    (∀ irn icn r s₁, getICIR s irn icn = .ok (r, s₁) →
        s₁.m_calculated = true ∧
        (s.m_calculated = false → s₁.calc_count = s.calc_count + 1) ∧
        (s.m_calculated = true → s₁.calc_count = s.calc_count) ∧
        ∃ s₂, getICIR s₁ irn icn = .ok (r, s₂) ∧ s₂.calc_count = s₁.calc_count) := by
  refine ⟨?_, ?_, ?_, ?_, ?_, ?_⟩
  · intro r s₁ h
    rcases getAllFactors_ok h with ⟨hcal, rfl⟩
    exact ⟨calculate_ok_flag hcal, (calculate_count hcal).1,
      fun ht => by rw [(calculate_count hcal).2 ht],
      s₁, getAllFactors_intro (calculate_idem hcal), rfl⟩
  · intro stk r s₁ h
    rcases getFactor_ok h with ⟨hcal, i, hl, hf⟩
    exact ⟨calculate_ok_flag hcal, (calculate_count hcal).1,
      fun ht => by rw [(calculate_count hcal).2 ht],
      s₁, getFactor_intro (calculate_idem hcal) hl hf, rfl⟩
  · intro d r s₁ h
    rcases getCross_ok h with ⟨hcal, i, hl, hf⟩
    exact ⟨calculate_ok_flag hcal, (calculate_count hcal).1,
      fun ht => by rw [(calculate_count hcal).2 ht],
      s₁, getCross_intro (calculate_idem hcal) hl hf, rfl⟩
  · intro r s₁ h
    rcases getAllCross_ok h with ⟨hcal, rfl⟩
    exact ⟨calculate_ok_flag hcal, (calculate_count hcal).1,
      fun ht => by rw [(calculate_count hcal).2 ht],
      s₁, getAllCross_intro (calculate_idem hcal), rfl⟩
  · intro n r s₁ h
    rcases getIC_repeat h with ⟨hflag, s₂, h2, hcc, -, -, -⟩
    exact ⟨hflag, (getIC_calc_count h).1, (getIC_calc_count h).2, s₂, h2, hcc⟩
  · intro irn icn r s₁ h
    rcases getICIR_repeat h with ⟨hflag, s₂, h2, hcc⟩
    exact ⟨hflag, (getICIR_calc_count h).1, (getICIR_calc_count h).2, s₂, h2, hcc⟩

/-- Witness for C1: on the concrete sample instance, each of the six
accessors succeeds, the repeated call returns the identical result, the
first call performs exactly one pipeline invocation and the repeat
performs none. -/
theorem mf_accessors_once_idempotent_witness :
    (∃ r s₁ s₂, getAllFactors sampleS = .ok (r, s₁) ∧ getAllFactors s₁ = .ok (r, s₂) ∧
       s₁.calc_count = sampleS.calc_count + 1 ∧ s₂.calc_count = s₁.calc_count) ∧
    (∃ r s₁ s₂, getFactor sampleS 10 = .ok (r, s₁) ∧ getFactor s₁ 10 = .ok (r, s₂) ∧
       s₂.calc_count = s₁.calc_count) ∧
    (∃ r s₁ s₂, getCross sampleS 1 = .ok (r, s₁) ∧ getCross s₁ 1 = .ok (r, s₂) ∧
       s₂.calc_count = s₁.calc_count) ∧
    (∃ r s₁ s₂, getAllCross sampleS = .ok (r, s₁) ∧ getAllCross s₁ = .ok (r, s₂) ∧
       s₂.calc_count = s₁.calc_count) ∧
    (∃ r s₁ s₂, getIC sampleS 0 = .ok (r, s₁) ∧ getIC s₁ 0 = .ok (r, s₂) ∧
       s₂.calc_count = s₁.calc_count) ∧
    (∃ r s₁ s₂, getICIR sampleS 2 0 = .ok (r, s₁) ∧ getICIR s₁ 2 0 = .ok (r, s₂) ∧
       s₂.calc_count = s₁.calc_count) := by
  refine ⟨?_, ?_, ?_, ?_, ?_, ?_⟩
  · obtain ⟨-, h1, -, s₂, hrep, hcc⟩ := (mf_accessors_once_idempotent sampleS).1 _ _ rfl
    exact ⟨_, _, s₂, rfl, hrep, h1 rfl, hcc⟩
  · obtain ⟨-, -, -, s₂, hrep, hcc⟩ := (mf_accessors_once_idempotent sampleS).2.1 10 _ _ rfl
    exact ⟨_, _, s₂, rfl, hrep, hcc⟩
  · obtain ⟨-, -, -, s₂, hrep, hcc⟩ := (mf_accessors_once_idempotent sampleS).2.2.1 1 _ _ rfl
    exact ⟨_, _, s₂, rfl, hrep, hcc⟩
  · obtain ⟨-, -, -, s₂, hrep, hcc⟩ := (mf_accessors_once_idempotent sampleS).2.2.2.1 _ _ rfl
    exact ⟨_, _, s₂, rfl, hrep, hcc⟩
  · obtain ⟨-, -, -, s₂, hrep, hcc⟩ := (mf_accessors_once_idempotent sampleS).2.2.2.2.1 0 _ _ rfl
    exact ⟨_, _, s₂, rfl, hrep, hcc⟩
  · obtain ⟨-, -, -, s₂, hrep, hcc⟩ :=
      (mf_accessors_once_idempotent sampleS).2.2.2.2.2 2 0 _ _ rfl
    exact ⟨_, _, s₂, rfl, hrep, hcc⟩

theorem calculate_cfg {s c : MFState} (h : calculate s = .ok c) :
    c.cfg = s.cfg ∧ c.env = s.env := by
  unfold calculate at h
  split at h
  · cases h
    exact ⟨rfl, rfl⟩
  · rcases runPipeline_ok_iff.mp h with ⟨-, rfl⟩
    exact ⟨rfl, rfl⟩

/-- C4: if the synthesis strategy returns a composite-factor list whose
length differs from the universe size, every accessor call on the
(uncomputed) instance fails with the same `ConfigurationError`, consistently
— and since every accessor fails, no partially computed derived structure is
ever readable through them (in this model the pipeline commits atomically:
a failing run never produces a post-state at all). -/
theorem mf_shape_mismatch_all_accessors_fail (s : MFState)
    (hflag : s.m_calculated = false)
    (hshape : (pipelineFactors s).length ≠ s.cfg.m_stks.length) :
    (∀ stk, getFactor s stk = .error .configurationError) ∧
    getAllFactors s = .error .configurationError ∧
    (∀ d, getCross s d = .error .configurationError) ∧
    getAllCross s = .error .configurationError ∧
    (∀ n, getIC s n = .error .configurationError) ∧
    (∀ irn icn, getICIR s irn icn = .error .configurationError) := by
  have hcal : calculate s = .error .configurationError := by
    unfold calculate runPipeline
    simp [hflag, hshape]
  have hic : ∀ n, getIC s n = .error .configurationError := by
    intro n
    unfold getIC
    rw [hcal]
  refine ⟨?_, ?_, ?_, ?_, hic, ?_⟩
  · intro stk
    unfold getFactor
    rw [hcal]
  · unfold getAllFactors
    rw [hcal]
  · intro d
    unfold getCross
    rw [hcal]
  · unfold getAllCross
    rw [hcal]
  · intro irn icn
    unfold getICIR
    rw [hic icn]

/-- Witness for C4: the concrete mis-shaped sample (a strategy returning 0
composite series for a 2-security universe) makes every accessor fail with
`ConfigurationError`. -/
theorem mf_shape_mismatch_all_accessors_fail_witness :
    badS.m_calculated = false ∧
    (pipelineFactors badS).length ≠ badS.cfg.m_stks.length ∧
    getAllFactors badS = .error .configurationError ∧
    getFactor badS 10 = .error .configurationError ∧
    getCross badS 1 = .error .configurationError ∧
    getAllCross badS = .error .configurationError ∧
    getIC badS 0 = .error .configurationError ∧
    getICIR badS 2 0 = .error .configurationError := by
  have h := mf_shape_mismatch_all_accessors_fail badS rfl (by decide)
  exact ⟨rfl, by decide, h.2.1, h.1 10, h.2.2.1 1, h.2.2.2.1, h.2.2.2.2.1 0,
    h.2.2.2.2.2 2 0⟩

/-- C6: for every instance, `getIC 0` returns exactly what `getIC ic_n`
returns, where `ic_n` is the IC horizon supplied at construction: the
argument 0 is the explicit special case substituting the configured
horizon. -/
theorem getIC_zero_eq_getIC_default (s : MFState) :
    getIC s 0 = getIC s s.cfg.m_params_ic_n := by
  unfold getIC
  rcases hcal : calculate s with e | c
  · rfl
  · have hcfg : c.cfg = s.cfg := (calculate_cfg hcal).1
    have h0 : effHorizon c 0 = c.cfg.m_params_ic_n := by
      simp [effHorizon]
    have h1 : effHorizon c s.cfg.m_params_ic_n = c.cfg.m_params_ic_n := by
      unfold effHorizon
      rw [hcfg]
      split <;> simp_all
    simp only []
    rw [h0, h1]

theorem lookup_indexMapFrom_of_mem {d : Nat} :
    ∀ (l : List Nat) (k : Nat), d ∈ l →
      List.lookup d (indexMapFrom k l) = some (k + l.indexOf d) := by
  intro l
  induction l with
  | nil => intro k h; cases h
  | cons x xs ih =>
    intro k h
    by_cases hdx : d = x
    · subst hdx
      simp [indexMapFrom, List.lookup, List.indexOf_cons]
    · have hmem : d ∈ xs := by
        rcases List.mem_cons.mp h with h1 | h1
        · exact absurd h1 hdx
        · exact h1
      have hbeq : (d == x) = false := beq_false_of_ne hdx
      have hbeq2 : (x == d) = false := beq_false_of_ne (Ne.symm hdx)
      simp only [indexMapFrom, List.lookup, hbeq, List.indexOf_cons, hbeq2, cond_false]
      rw [ih (k + 1) hmem]
      congr 1
      omega

theorem lookup_indexMapFrom_of_not_mem {d : Nat} :
    ∀ (l : List Nat) (k : Nat), d ∉ l →
      List.lookup d (indexMapFrom k l) = none := by
  intro l
  induction l with
  | nil => intro k _; rfl
  | cons x xs ih =>
    intro k h
    have hdx : d ≠ x := fun he => h (he ▸ List.mem_cons_self x xs)
    have hmem : d ∉ xs := fun hm => h (List.mem_cons_of_mem x hm)
    have hbeq : (d == x) = false := beq_false_of_ne hdx
    simp only [indexMapFrom, List.lookup, hbeq]
    exact ih (k + 1) hmem

theorem lookup_indexMap_of_mem {d : Nat} {l : List Nat} (h : d ∈ l) :
    List.lookup d (indexMap l) = some (l.indexOf d) := by
  have := lookup_indexMapFrom_of_mem l 0 h
  simpa [indexMap] using this

theorem lookup_indexMap_of_not_mem {d : Nat} {l : List Nat} (h : d ∉ l) :
    List.lookup d (indexMap l) = none :=
  lookup_indexMapFrom_of_not_mem l 0 h

/-- C3: on a computed instance, `getFactor` succeeds for every security of
the configured universe and returns exactly the entry of `getAllFactors`
at the security's `SecurityIndex` slot; `getFactor` fails with the
not-found condition for securities outside the universe, and `getCross`
fails with the not-found condition for dates outside the reference date
axis. -/
theorem mf_index_bijection_and_not_found {s c : MFState}
    (hrun : runPipeline s = .ok c) :
    (∀ stk ∈ c.cfg.m_stks, ∃ i f,
        c.m_stk_map.lookup stk = some i ∧
        c.m_all_factors[i]? = some f ∧
        getFactor c stk = .ok (f, c) ∧
        getAllFactors c = .ok (c.m_all_factors, c)) ∧
    (∀ stk, stk ∉ c.cfg.m_stks → getFactor c stk = .error .notFoundError) ∧
    (∀ d, d ∉ c.m_ref_dates → getCross c d = .error .notFoundError) := by
  rcases runPipeline_ok_iff.mp hrun with ⟨hshape, rfl⟩
  have hflag : (pipelineResult s).m_calculated = true := rfl
  have hcal : calculate (pipelineResult s) = .ok (pipelineResult s) :=
    calculate_of_calculated hflag
  refine ⟨?_, ?_, ?_⟩
  · intro stk hmem
    have hmem' : stk ∈ s.cfg.m_stks := hmem
    have hidx : s.cfg.m_stks.indexOf stk < s.cfg.m_stks.length :=
      List.indexOf_lt_length.mpr hmem'
    have hlt : s.cfg.m_stks.indexOf stk < (pipelineFactors s).length := by
      rw [hshape]; exact hidx
    refine ⟨s.cfg.m_stks.indexOf stk, (pipelineFactors s)[s.cfg.m_stks.indexOf stk],
      ?_, ?_, ?_, getAllFactors_intro hcal⟩
    · exact lookup_indexMap_of_mem hmem'
    · exact List.getElem?_eq_getElem hlt
    · exact getFactor_intro hcal (lookup_indexMap_of_mem hmem')
        (List.getElem?_eq_getElem hlt)
  · intro stk hmem
    unfold getFactor
    rw [hcal]
    simp only []
    have hms : (pipelineResult s).m_stk_map = indexMap ((pipelineResult s).cfg.m_stks) := rfl
    rw [hms, lookup_indexMap_of_not_mem hmem]
  · intro d hmem
    unfold getCross
    rw [hcal]
    simp only []
    have hdi : (pipelineResult s).m_date_index = indexMap ((pipelineResult s).m_ref_dates) := rfl
    rw [hdi, lookup_indexMap_of_not_mem hmem]

/-- Witness for C3: on the computed sample instance, `getFactor 10`
succeeds and returns the slot of security 10, while `getFactor 99` and
`getCross 5` fail with the not-found condition. -/
theorem mf_index_bijection_and_not_found_witness :
    ∃ c, runPipeline sampleS = .ok c ∧
      (∃ i f, c.m_stk_map.lookup 10 = some i ∧ c.m_all_factors[i]? = some f ∧
        getFactor c 10 = .ok (f, c)) ∧
      getFactor c 99 = .error .notFoundError ∧
      getCross c 5 = .error .notFoundError := by
  obtain ⟨h1, h2, h3⟩ := @mf_index_bijection_and_not_found sampleS _ rfl
  obtain ⟨i, f, hi, hf, hg, -⟩ := h1 10 (by decide)
  exact ⟨_, rfl, ⟨i, f, hi, hf, hg⟩, h2 99 (by decide), h3 5 (by decide)⟩

/-- C7: `clone` produces a fresh instance of the same concrete strategy
(it keeps the strategy capability and every configuration field) whose
computation state is uncomputed and whose derived/cached structures are all
empty; it shares no derived state with the original — forcing computation
on the original never changes the clone, and the clone's first accessor
call performs a full independent pipeline computation. -/
theorem clone_fresh_isolated (s : MFState) :
    (clone s).cfg = s.cfg ∧
    (clone s).env = s.env ∧
    (clone s).m_calculated = false ∧
    (clone s).m_ref_dates = [] ∧
    (clone s).m_stk_map = [] ∧
    (clone s).m_all_factors = [] ∧
    (clone s).m_date_index = [] ∧
    (clone s).m_stk_factor_by_date = [] ∧
    (clone s).m_ic = none ∧
    (clone s).calc_count = 0 ∧
    (∀ c, calculate s = .ok c → clone c = clone s) ∧
    (∀ r s₁, getAllFactors (clone s) = .ok (r, s₁) → s₁.calc_count = 1) := by
  refine ⟨rfl, rfl, rfl, rfl, rfl, rfl, rfl, rfl, rfl, rfl, ?_, ?_⟩
  · intro c hc
    unfold clone
    rw [(calculate_cfg hc).1, (calculate_cfg hc).2]
  · intro r s₁ h
    rcases getAllFactors_ok h with ⟨hcal, -⟩
    exact (calculate_count hcal).1 rfl

/-- Witness for C7: on the sample instance, the clone is uncomputed, stays
identical after the original is forced, and its own first accessor call
runs the pipeline once. -/
theorem clone_fresh_isolated_witness :
    (clone sampleS).m_calculated = false ∧
    (∃ c, calculate sampleS = .ok c ∧ clone c = clone sampleS) ∧
    (∃ r s₁, getAllFactors (clone sampleS) = .ok (r, s₁) ∧ s₁.calc_count = 1) := by
  obtain ⟨-, -, h3, -, -, -, -, -, -, -, h11, h12⟩ := clone_fresh_isolated sampleS
  exact ⟨h3, ⟨_, rfl, h11 _ rfl⟩, ⟨_, _, rfl, h12 _ _ rfl⟩⟩

/-- The C8 claim, formalized against the header's `save`: the persisted
form contains exactly the configuration fields and no derived field — in
particular it is then a function of the configuration alone. -/
def savedFormConfigOnly : Prop :=
  ∀ s t : MFState, s.cfg = t.cfg → save s = save t

/-- Counterexample to C8: `save` archives the derived member `m_ref_dates`
(header line 128; declared under the header's "produced by the computation"
comment, line 103), so two instances with identical configuration but
different reference date axes persist differently — the persisted form
does not contain only configuration fields. -/
theorem mf_save_includes_derived_ref_dates :
    (¬ savedFormConfigOnly) ∧
    "m_ref_dates" ∈ mfSaveFields ∧ "m_ref_dates" ∈ mfDerivedFields := by
  refine ⟨?_, by decide, by decide⟩
  intro h
  have heq := h (initMF sampleCfg sampleEnv)
    { initMF sampleCfg sampleEnv with m_ref_dates := [1] } rfl
  have h2 : ([] : List Datetime) = [1] := congrArg MFSavedForm.m_ref_dates heq
  cases h2

/-- C8 amended: the persisted form contains exactly the configuration
fields (name, parameters/IC horizon, raw factors, universe, reference
security, query) plus the derived reference date axis `m_ref_dates`; every
other derived or cached member (`m_stk_map`, `m_all_factors`,
`m_date_index`, `m_stk_factor_by_date`, `m_ic`, `m_calculated`) is excluded
from the archive, holds its default (absent) value after deserialization,
and is rebuilt by the pipeline on the first accessor call. -/
theorem mf_save_load_contents :
    (∀ (a : MFSavedForm) (env : MFEnv) (r : List Series) (s₁ : MFState),
        getAllFactors (load a env) = .ok (r, s₁) → s₁.calc_count = 1) ∧
    (∀ s : MFState, save s =
      { m_name := s.cfg.m_name
        m_params_ic_n := s.cfg.m_params_ic_n
        m_inds := s.cfg.m_inds
        m_stks := s.cfg.m_stks
        m_ref_stk := s.cfg.m_ref_stk
        m_query := s.cfg.m_query
        m_ref_dates := s.m_ref_dates }) ∧
    (∀ (a : MFSavedForm) (env : MFEnv),
        (load a env).cfg = ⟨a.m_name, a.m_params_ic_n, a.m_inds, a.m_stks, a.m_ref_stk, a.m_query⟩ ∧
        (load a env).m_ref_dates = a.m_ref_dates ∧
        (load a env).m_calculated = false ∧
        (load a env).m_stk_map = [] ∧
        (load a env).m_all_factors = [] ∧
        (load a env).m_date_index = [] ∧
        (load a env).m_stk_factor_by_date = [] ∧
        (load a env).m_ic = none) ∧
    mfLoadFields = mfSaveFields ∧
    mfSaveFields = mfConfigFields ++ ["m_ref_dates"] ∧
    "m_stk_map" ∉ mfSaveFields ∧
    "m_all_factors" ∉ mfSaveFields ∧
    "m_date_index" ∉ mfSaveFields ∧
    "m_stk_factor_by_date" ∉ mfSaveFields ∧
    "m_ic" ∉ mfSaveFields ∧
    "m_calculated" ∉ mfSaveFields := by
  refine ⟨?_, fun s => rfl, fun a env => ⟨rfl, rfl, rfl, rfl, rfl, rfl, rfl, rfl⟩,
    by decide, by decide, by decide, by decide, by decide, by decide, by decide, by decide⟩
  intro a env r s₁ h
  rcases getAllFactors_ok h with ⟨hcal, -⟩
  exact (calculate_count hcal).1 rfl

/-- Witness for C8 (amended): reloading the persisted sample instance gives
an uncomputed state whose first accessor call runs the pipeline once. -/
theorem mf_save_load_contents_witness :
    ∃ r s₁, getAllFactors (load (save sampleS) sampleEnv) = .ok (r, s₁) ∧
      s₁.calc_count = 1 :=
  ⟨_, _, rfl, mf_save_load_contents.1 (save sampleS) sampleEnv _ _ rfl⟩

/-- C9: `DelegateSystem` is a pure forwarding adapter: for every overridden
operation and every input, the wrapper returns the same result as invoking
the operation directly on the wrapped inner system, and its state change is
exactly the inner system's state change (the post-state wraps the inner
post-state). -/
theorem delegate_forwards {σ : Type} (ops : SystemOps σ) (s : σ) :
    (∀ k r ra, (delegateOps ops).run ⟨s⟩ k r ra = ⟨ops.run s k r ra⟩) ∧
    (∀ d, (delegateOps ops).runMoment ⟨s⟩ d =
        ((ops.runMoment s d).1, ⟨(ops.runMoment s d).2⟩)) ∧
    (delegateOps ops)._reset ⟨s⟩ = ⟨ops._reset s⟩ ∧
    (delegateOps ops)._forceResetAll ⟨s⟩ = ⟨ops._forceResetAll s⟩ ∧
    (∀ d n p, (delegateOps ops).sellForceOnOpen ⟨s⟩ d n p =
        ((ops.sellForceOnOpen s d n p).1, ⟨(ops.sellForceOnOpen s d n p).2⟩)) ∧
    (∀ d n p, (delegateOps ops).sellForceOnClose ⟨s⟩ d n p =
        ((ops.sellForceOnClose s d n p).1, ⟨(ops.sellForceOnClose s d n p).2⟩)) ∧
    (delegateOps ops).clearDelayBuyRequest ⟨s⟩ = ⟨ops.clearDelayBuyRequest s⟩ ∧
    (delegateOps ops).haveDelaySellRequest ⟨s⟩ = ops.haveDelaySellRequest s ∧
    (∀ d, (delegateOps ops).pfProcessDelaySellRequest ⟨s⟩ d =
        ((ops.pfProcessDelaySellRequest s d).1, ⟨(ops.pfProcessDelaySellRequest s d).2⟩)) :=
  ⟨fun _ _ _ => rfl, fun _ => rfl, rfl, rfl, fun _ _ _ => rfl, fun _ _ _ => rfl,
    rfl, rfl, fun _ => rfl⟩

/-! ## Helper lemmas: the cross-section ranking -/

theorem crossLe_iff {a b : Stock × Nat × Option Value} :
    crossLe a b = true ↔
      (keyVal b < keyVal a ∨ (keyVal a = keyVal b ∧ a.2.1 ≤ b.2.1)) := by
  simp [crossLe]

theorem crossLe_trans (a b c : Stock × Nat × Option Value)
    (hab : crossLe a b = true) (hbc : crossLe b c = true) : crossLe a c = true := by
  rw [crossLe_iff] at hab hbc ⊢
  rcases hab with h1 | ⟨h1, h1i⟩ <;> rcases hbc with h2 | ⟨h2, h2i⟩
  · exact Or.inl (lt_trans h2 h1)
  · exact Or.inl (h2 ▸ h1)
  · exact Or.inl (lt_of_lt_of_le h2 h1.ge)
  · exact Or.inr ⟨h1.trans h2, le_trans h1i h2i⟩

theorem crossLe_total (a b : Stock × Nat × Option Value) :
    (crossLe a b || crossLe b a) = true := by
  rw [Bool.or_eq_true, crossLe_iff, crossLe_iff]
  rcases lt_trichotomy (keyVal a) (keyVal b) with h | h | h
  · exact Or.inr (Or.inl h)
  · rcases Nat.le_total a.2.1 b.2.1 with hi | hi
    · exact Or.inl (Or.inr ⟨h, hi⟩)
    · exact Or.inr (Or.inr ⟨h.symm, hi⟩)
  · exact Or.inl (Or.inl h)

theorem crossEntriesFrom_map_fst (factors : List Series) (di : Nat) :
    ∀ (l : List Stock) (k : Nat),
      (crossEntriesFrom factors di k l).map (fun t => t.1) = l := by
  intro l
  induction l with
  | nil => intro k; rfl
  | cons x xs ih =>
    intro k
    simp only [crossEntriesFrom, List.map_cons, ih]

theorem crossEntriesFrom_map_idx (factors : List Series) (di : Nat) :
    ∀ (l : List Stock) (k : Nat),
      (crossEntriesFrom factors di k l).map (fun t => t.2.1) = List.range' k l.length := by
  intro l
  induction l with
  | nil => intro k; rfl
  | cons x xs ih =>
    intro k
    simp only [crossEntriesFrom, List.map_cons, ih, List.length_cons, List.range']

theorem crossEntriesFrom_mem (factors : List Series) (di : Nat) :
    ∀ (l : List Stock) (k : Nat) (t : Stock × Nat × Option Value),
      t ∈ crossEntriesFrom factors di k l →
      ∃ j, ∃ hj : j < l.length,
        t.1 = l[j] ∧ t.2.1 = k + j ∧ t.2.2 = valueAt factors (k + j) di := by
  intro l
  induction l with
  | nil => intro k t ht; cases ht
  | cons x xs ih =>
    intro k t ht
    rcases List.mem_cons.mp ht with rfl | ht
    · exact ⟨0, by simp, rfl, rfl, rfl⟩
    · rcases ih (k + 1) t ht with ⟨j, hj, h1, h2, h3⟩
      have hkj : k + 1 + j = k + (j + 1) := by omega
      refine ⟨j + 1, by simpa using Nat.succ_lt_succ hj, ?_, ?_, ?_⟩
      · rw [List.getElem_cons_succ]
        exact h1
      · rw [h2, hkj]
      · rw [h3, hkj]

theorem crossTaggedAt_pairwise (stks : List Stock) (factors : List Series) (di : Nat) :
    (crossTaggedAt stks factors di).Pairwise (fun a b => crossLe a b = true) :=
  List.sorted_mergeSort crossLe_trans crossLe_total _

theorem crossTaggedAt_perm (stks : List Stock) (factors : List Series) (di : Nat) :
    (crossTaggedAt stks factors di).Perm (crossEntriesFrom factors di 0 stks) :=
  List.mergeSort_perm _ _

theorem crossTaggedAt_mem {stks : List Stock} {factors : List Series} {di : Nat}
    {t : Stock × Nat × Option Value} (h : t ∈ crossTaggedAt stks factors di) :
    ∃ j, ∃ hj : j < stks.length,
      t.1 = stks[j] ∧ t.2.1 = j ∧ t.2.2 = valueAt factors j di := by
  have hmem : t ∈ crossEntriesFrom factors di 0 stks :=
    (crossTaggedAt_perm stks factors di).mem_iff.mp h
  rcases crossEntriesFrom_mem factors di stks 0 t hmem with ⟨j, hj, h1, h2, h3⟩
  exact ⟨j, hj, h1, by simpa using h2, by simpa using h3⟩

theorem crossTaggedAt_idx_nodup (stks : List Stock) (factors : List Series) (di : Nat) :
    ((crossTaggedAt stks factors di).map (fun t => t.2.1)).Nodup := by
  have hp : ((crossTaggedAt stks factors di).map (fun t => t.2.1)).Perm
      ((crossEntriesFrom factors di 0 stks).map (fun t => t.2.1)) :=
    (crossTaggedAt_perm stks factors di).map _
  refine hp.nodup_iff.mpr ?_
  rw [crossEntriesFrom_map_idx]
  exact List.nodup_range' 0 stks.length

theorem crossTaggedAt_indexOf {stks : List Stock} {factors : List Series} {di : Nat}
    {t : Stock × Nat × Option Value} (hnd : stks.Nodup)
    (h : t ∈ crossTaggedAt stks factors di) : stks.indexOf t.1 = t.2.1 := by
  rcases crossTaggedAt_mem h with ⟨j, hj, h1, h2, -⟩
  rw [h1, h2]
  exact List.indexOf_getElem hnd j hj

theorem buildCrossAt_fst_perm (stks : List Stock) (factors : List Series) (di : Nat) :
    ((buildCrossAt stks factors di).map Prod.fst).Perm stks := by
  unfold buildCrossAt
  rw [List.map_map]
  refine List.Perm.trans (List.Perm.map _ (crossTaggedAt_perm stks factors di)) ?_
  show ((crossEntriesFrom factors di 0 stks).map (fun t => t.1)).Perm stks
  rw [crossEntriesFrom_map_fst]

theorem buildCrossAt_length (stks : List Stock) (factors : List Series) (di : Nat) :
    (buildCrossAt stks factors di).length = stks.length := by
  have h := (buildCrossAt_fst_perm stks factors di).length_eq
  rw [List.length_map] at h
  exact h

theorem buildCrossAt_sorted (stks : List Stock) (factors : List Series) (di : Nat) :
    (buildCrossAt stks factors di).Pairwise (fun a b => optKey b.2 ≤ optKey a.2) := by
  unfold buildCrossAt
  refine List.Pairwise.map _ ?_ (crossTaggedAt_pairwise stks factors di)
  intro a b hab
  rcases crossLe_iff.mp hab with h | ⟨h, -⟩
  · exact le_of_lt h
  · exact h.ge

theorem buildCrossAt_undef_last (stks : List Stock) (factors : List Series) (di : Nat) :
    ∀ i j (hi : i < (buildCrossAt stks factors di).length)
        (hj : j < (buildCrossAt stks factors di).length), i < j →
      (buildCrossAt stks factors di)[i].2 = none →
      (buildCrossAt stks factors di)[j].2 = none := by
  intro i j hi hj hij hnone
  have hp := (List.pairwise_iff_getElem.mp (buildCrossAt_sorted stks factors di)) i j hi hj hij
  rw [hnone] at hp
  cases hv : (buildCrossAt stks factors di)[j].2 with
  | none => rfl
  | some v =>
    rw [hv] at hp
    exact absurd (le_bot_iff.mp hp) WithBot.coe_ne_bot

theorem buildCrossAt_ties (stks : List Stock) (factors : List Series) (di : Nat)
    (hnd : stks.Nodup) :
    ∀ i j (hi : i < (buildCrossAt stks factors di).length)
        (hj : j < (buildCrossAt stks factors di).length), i < j →
      (buildCrossAt stks factors di)[i].2 = (buildCrossAt stks factors di)[j].2 →
      stks.indexOf (buildCrossAt stks factors di)[i].1 <
        stks.indexOf (buildCrossAt stks factors di)[j].1 := by
  intro i j hi hj hij heq
  have hlen : (buildCrossAt stks factors di).length = (crossTaggedAt stks factors di).length := by
    unfold buildCrossAt
    rw [List.length_map]
  have hi2 : i < (crossTaggedAt stks factors di).length := hlen ▸ hi
  have hj2 : j < (crossTaggedAt stks factors di).length := hlen ▸ hj
  have hgi : (buildCrossAt stks factors di)[i] =
      ((crossTaggedAt stks factors di)[i].1, (crossTaggedAt stks factors di)[i].2.2) := by
    unfold buildCrossAt
    rw [List.getElem_map]
  have hgj : (buildCrossAt stks factors di)[j] =
      ((crossTaggedAt stks factors di)[j].1, (crossTaggedAt stks factors di)[j].2.2) := by
    unfold buildCrossAt
    rw [List.getElem_map]
  have hveq : (crossTaggedAt stks factors di)[i].2.2 = (crossTaggedAt stks factors di)[j].2.2 := by
    have h1 := congrArg Prod.snd hgi
    have h2 := congrArg Prod.snd hgj
    rw [heq] at h1
    exact h1.symm.trans h2
  have hcross := (List.pairwise_iff_getElem.mp (crossTaggedAt_pairwise stks factors di))
    i j hi2 hj2 hij
  rcases crossLe_iff.mp hcross with hlt | ⟨-, hle⟩
  · have hkeq : keyVal (crossTaggedAt stks factors di)[i] =
        keyVal (crossTaggedAt stks factors di)[j] := by
      unfold keyVal
      rw [hveq]
    rw [hkeq] at hlt
    exact absurd hlt (lt_irrefl _)
  · have hmaplen : i < ((crossTaggedAt stks factors di).map (fun t => t.2.1)).length := by
      rw [List.length_map]
      exact hi2
    have hmaplen2 : j < ((crossTaggedAt stks factors di).map (fun t => t.2.1)).length := by
      rw [List.length_map]
      exact hj2
    have hne : (crossTaggedAt stks factors di)[i].2.1 ≠ (crossTaggedAt stks factors di)[j].2.1 := by
      intro hcon
      have hmapeq : ((crossTaggedAt stks factors di).map (fun t => t.2.1))[i] =
          ((crossTaggedAt stks factors di).map (fun t => t.2.1))[j] := by
        rw [List.getElem_map, List.getElem_map]
        exact hcon
      have : i = j :=
        ((crossTaggedAt_idx_nodup stks factors di).getElem_inj_iff).mp hmapeq
      omega
    have hidxi := crossTaggedAt_indexOf hnd (List.getElem_mem hi2)
    have hidxj := crossTaggedAt_indexOf hnd (List.getElem_mem hj2)
    rw [congrArg Prod.fst hgi, congrArg Prod.fst hgj]
    rw [hidxi, hidxj]
    exact lt_of_le_of_ne hle hne

/-- C2: on a computed instance with a duplicate-free universe, `getCross d`
succeeds for every date `d` of the reference date axis and returns a
ranking that (i) has exactly one entry per universe member — its securities
are a permutation of the universe, hence its length is the universe size;
(ii) is sorted descending by composite value with undefined values below
every defined value; (iii) keeps every undefined entry after all defined
entries; and (iv) breaks ties between equal values by original universe
order. -/
theorem mf_cross_ranking_invariant {s c : MFState} (hrun : runPipeline s = .ok c)
    (hnd : s.cfg.m_stks.Nodup) :
    ∀ d ∈ c.m_ref_dates, ∃ r, getCross c d = .ok (r, c) ∧
      r.length = c.cfg.m_stks.length ∧
      (r.map Prod.fst).Perm c.cfg.m_stks ∧
      r.Pairwise (fun a b => optKey b.2 ≤ optKey a.2) ∧
      (∀ i j (hi : i < r.length) (hj : j < r.length), i < j →
        r[i].2 = none → r[j].2 = none) ∧
      (∀ i j (hi : i < r.length) (hj : j < r.length), i < j →
        r[i].2 = r[j].2 →
        c.cfg.m_stks.indexOf r[i].1 < c.cfg.m_stks.indexOf r[j].1) := by
  rcases runPipeline_ok_iff.mp hrun with ⟨hshape, rfl⟩
  intro d hd
  have hcal : calculate (pipelineResult s) = .ok (pipelineResult s) :=
    calculate_of_calculated rfl
  have hdi : (pipelineResult s).m_ref_dates.indexOf d < (pipelineDates s).length :=
    List.indexOf_lt_length.mpr hd
  have hlk : (pipelineResult s).m_date_index.lookup d =
      some ((pipelineResult s).m_ref_dates.indexOf d) :=
    lookup_indexMap_of_mem hd
  have hfa : (pipelineResult s).m_stk_factor_by_date[(pipelineResult s).m_ref_dates.indexOf d]? =
      some (buildCrossAt s.cfg.m_stks (pipelineFactors s)
        ((pipelineResult s).m_ref_dates.indexOf d)) := by
    show ((List.range (pipelineDates s).length).map
        (buildCrossAt s.cfg.m_stks (pipelineFactors s)))[(pipelineResult s).m_ref_dates.indexOf d]? = _
    rw [List.getElem?_map, List.getElem?_range hdi]
    rfl
  refine ⟨buildCrossAt s.cfg.m_stks (pipelineFactors s) ((pipelineResult s).m_ref_dates.indexOf d),
    getCross_intro hcal hlk hfa, buildCrossAt_length _ _ _, buildCrossAt_fst_perm _ _ _,
    buildCrossAt_sorted _ _ _, buildCrossAt_undef_last _ _ _, buildCrossAt_ties _ _ _ hnd⟩

/-- Witness for C2: the ranking invariant applied to the computed sample
instance at the first reference date. -/
theorem mf_cross_ranking_invariant_witness :
    ∃ c r, runPipeline sampleS = .ok c ∧ sampleS.cfg.m_stks.Nodup ∧
      (1 : Datetime) ∈ c.m_ref_dates ∧ getCross c 1 = .ok (r, c) ∧
      r.length = c.cfg.m_stks.length ∧ (r.map Prod.fst).Perm c.cfg.m_stks ∧
      r.Pairwise (fun a b => optKey b.2 ≤ optKey a.2) := by
  obtain ⟨r, h1, h2, h3, h4, -, -⟩ :=
    @mf_cross_ranking_invariant sampleS _ rfl (by decide) 1 (by decide)
  exact ⟨_, r, rfl, by decide, by decide, h1, h2, h3, h4⟩

theorem getIC_preserves_core {s : MFState} {n : Nat} {r : Series} {s₁ : MFState}
    (h : getIC s n = .ok (r, s₁)) (hflag : s.m_calculated = true) :
    s₁.cfg = s.cfg ∧ s₁.env = s.env ∧ s₁.m_ref_dates = s.m_ref_dates ∧
      s₁.m_all_factors = s.m_all_factors ∧ s₁.m_calculated = true ∧
      (∀ ic, s.m_ic = some ic → s₁.m_ic = some ic) := by
  rcases getIC_cases h with ⟨c, hcal, hc⟩
  have hcs : c = s := (calculate_count hcal).2 hflag
  subst hcs
  rcases hc with ⟨-, -, rfl⟩ | ⟨-, hic, -, rfl⟩ | ⟨-, -, rfl⟩
  · exact ⟨rfl, rfl, rfl, rfl, hflag, fun ic hi => hi⟩
  · refine ⟨rfl, rfl, rfl, rfl, hflag, fun ic hi => ?_⟩
    rw [hic] at hi
    cases hi
  · exact ⟨rfl, rfl, rfl, rfl, hflag, fun ic hi => hi⟩

theorem computeIC_congr {a b : MFState} (hcfg : a.cfg = b.cfg) (henv : a.env = b.env)
    (hrd : a.m_ref_dates = b.m_ref_dates) (haf : a.m_all_factors = b.m_all_factors)
    (n : Nat) : computeIC a n = computeIC b n := by
  unfold computeIC pairsAt
  rw [hcfg, henv, hrd, haf]

/-- The C5 claim, formalized: `getIC` results are memoized per distinct
argument value — a repeated `getIC n` call never performs an IC
computation (the IC-computation counter does not move), even when a call
with a different argument is interleaved between the two `getIC n` calls. -/
def icMemoizedPerArgument : Prop :=
  ∀ (s s₁ s₂ s₃ : MFState) (r₁ r₂ r₃ : Series) (n m : Nat),
    getIC s n = .ok (r₁, s₁) → getIC s₁ m = .ok (r₂, s₂) →
    getIC s₂ n = .ok (r₃, s₃) → s₃.ic_count = s₂.ic_count

/-- Counterexample to C5: the header gives the instance a single cached
`Indicator m_ic` (line 108) and no per-argument table, so at most one IC
series can be cached.  On the sample instance (construction horizon 1),
the call sequence `getIC 2; getIC 3; getIC 2` recomputes the IC on the
repeated `getIC 2` call — the IC-computation counter moves — refuting
per-distinct-argument memoization. -/
theorem ic_not_memoized_per_argument : ¬ icMemoizedPerArgument := by
  intro h
  have hx := h sampleS _ _ _ _ _ _ 2 3 rfl rfl rfl
  exact absurd hx (by decide)

/-- C5 amended: the engine memoizes at most one IC series — the one for
the construction horizon, held in the single header slot `m_ic`.
(a) For a default-horizon argument (`n = 0` or `n = ic_n`): after a first
successful `getIC n`, a repeated `getIC n` returns the identical series
with no recomputation and no state change at all, even when a call with a
different argument is interleaved.  (b) For any other horizon, the repeated
call returns an equal series but performs a fresh IC computation (the
counter moves).  `getICIR` derives its series from `getIC` and adds no
memoization of its own. -/
theorem getIC_single_slot_memoization :
    (∀ (s s₁ s₂ s₃ : MFState) (r₁ r₂ r₃ : Series) (n m : Nat),
        (n = 0 ∨ n = s.cfg.m_params_ic_n) →
        getIC s n = .ok (r₁, s₁) → getIC s₁ m = .ok (r₂, s₂) →
        getIC s₂ n = .ok (r₃, s₃) → r₃ = r₁ ∧ s₃ = s₂) ∧
    (∀ (s s₁ s₂ s₃ : MFState) (r₁ r₂ r₃ : Series) (n m : Nat),
        n ≠ 0 → n ≠ s.cfg.m_params_ic_n →
        getIC s n = .ok (r₁, s₁) → getIC s₁ m = .ok (r₂, s₂) →
        getIC s₂ n = .ok (r₃, s₃) →
        r₃ = r₁ ∧ s₃.ic_count = s₂.ic_count + 1) := by
  constructor
  · intro s s₁ s₂ s₃ r₁ r₂ r₃ n m hn h1 h2 h3
    rcases getIC_cases h1 with ⟨c, hcal, hc⟩
    have hcfg : c.cfg = s.cfg := (calculate_cfg hcal).1
    have heff : effHorizon c n = c.cfg.m_params_ic_n := by
      unfold effHorizon
      rcases hn with rfl | rfl
      · simp
      · split
        · rfl
        · rw [hcfg]
    have key : s₁.m_calculated = true ∧ s₁.m_ic = some r₁ ∧ s₁.cfg = s.cfg := by
      rcases hc with ⟨-, hic, rfl⟩ | ⟨-, hic, hr, rfl⟩ | ⟨hne, -, -⟩
      · exact ⟨calculate_ok_flag hcal, hic, hcfg⟩
      · have hflag := calculate_ok_flag hcal
        exact ⟨hflag, rfl, hcfg⟩
      · exact absurd heff hne
    obtain ⟨hcfg2, -, -, -, hflag2, hicp⟩ := getIC_preserves_core h2 key.1
    have hic2 : s₂.m_ic = some r₁ := hicp r₁ key.2.1
    have heff2 : effHorizon s₂ n = s₂.cfg.m_params_ic_n := by
      unfold effHorizon
      rcases hn with rfl | rfl
      · simp
      · split
        · rfl
        · rw [hcfg2, key.2.2]
    have hhit := getIC_intro_hit hflag2 heff2 hic2
    rw [hhit] at h3
    cases h3
    exact ⟨rfl, rfl⟩
  · intro s s₁ s₂ s₃ r₁ r₂ r₃ n m hn0 hnic h1 h2 h3
    rcases getIC_cases h1 with ⟨c, hcal, hc⟩
    have hcfg : c.cfg = s.cfg := (calculate_cfg hcal).1
    have heffc : effHorizon c n = n := by
      unfold effHorizon
      rw [if_neg hn0]
    have hnec : effHorizon c n ≠ c.cfg.m_params_ic_n := by
      rw [heffc, hcfg]
      exact hnic
    rcases hc with ⟨heq, -, -⟩ | ⟨heq, -, -, -⟩ | ⟨-, hr, rfl⟩
    · exact absurd heq hnec
    · exact absurd heq hnec
    · have hflag0 := calculate_ok_flag hcal
      have hflag1 : ({ c with ic_count := c.ic_count + 1 } : MFState).m_calculated = true := hflag0
      obtain ⟨hcfg2, henv2, hrd2, haf2, hflag2, -⟩ := getIC_preserves_core h2 hflag1
      have hne2 : effHorizon s₂ n ≠ s₂.cfg.m_params_ic_n := by
        unfold effHorizon
        rw [if_neg hn0, hcfg2]
        show n ≠ c.cfg.m_params_ic_n
        rw [hcfg]
        exact hnic
      have hoth := getIC_intro_other hflag2 hne2
      rw [hoth] at h3
      cases h3
      refine ⟨?_, rfl⟩
      rw [hr]
      have heffs2 : effHorizon s₂ n = n := by
        unfold effHorizon
        rw [if_neg hn0]
      rw [heffs2, heffc]
      exact computeIC_congr hcfg2 henv2 hrd2 haf2 n

/-- Witness for the amended C5: on the sample instance, a repeated
`getIC 0` around an interleaved `getIC 2` is a pure cache hit (identical
series, identical state), while a repeated `getIC 2` (horizon distinct
from the construction horizon 1) returns the equal series but recomputes. -/
theorem getIC_single_slot_memoization_witness :
    (∃ r₁ s₁ r₂ s₂ s₃, getIC sampleS 0 = .ok (r₁, s₁) ∧ getIC s₁ 2 = .ok (r₂, s₂) ∧
       getIC s₂ 0 = .ok (r₁, s₃) ∧ s₃ = s₂) ∧
    (∃ r₁ s₁ r₂ s₂ r₃ s₃, getIC sampleS 2 = .ok (r₁, s₁) ∧ getIC s₁ 3 = .ok (r₂, s₂) ∧
       getIC s₂ 2 = .ok (r₃, s₃) ∧ r₃ = r₁ ∧ s₃.ic_count = s₂.ic_count + 1) := by
  constructor
  · have h := getIC_single_slot_memoization.1 sampleS _ _ _ _ _ _ 0 2 (Or.inl rfl) rfl rfl rfl
    exact ⟨_, _, _, _, _, rfl, rfl, h.1 ▸ rfl, h.2⟩
  · have h := getIC_single_slot_memoization.2 sampleS _ _ _ _ _ _ 2 3 (by decide) (by decide)
      rfl rfl rfl
    exact ⟨_, _, _, _, _, _, rfl, rfl, rfl, h.1, h.2⟩

end HikyuuSpec
